import Mathlib

/-!
Verification development for the immutable-x-snippets repository.

The repository has two layers:

1. A retry/sequence helper (`RetryOptions`, `AsyncIndependentJob`,
   `AsyncJobSequence` with a single `run` operation), imported by
   `src/service.ts` from a module `./etl` whose source file is not part of
   the sources at hand.  That layer is therefore modelled from the
   specification (sections 3, 4, 7 and 8 of the design document).
2. Glue code in `src/service.ts` (price computation, job construction over
   a proto range, an SQL upsert), embedded here directly from the source.

Executions are modelled with an explicit invocation trace: every invocation
of a wrapped operation appends the numeric label of its job to the trace,
so attempt counts and execution order are observable in the result.
-/

/-- Modelled from the spec: `RetryOptions` of the missing `src/etl` module,
`{ maxRetries: integer ≥ 0 }` (spec section 3); the shape is confirmed by the
literal `{ maxRetries: 5 }` built in `defaultRetryOptions` of `src/service.ts`. -/
structure RetryOptions where
  maxRetries : Nat
deriving Repr, DecidableEq

/-- Modelled from the spec: the caller-visible failure of a `run()` in the
missing `src/etl` module.  Spec section 7: all permitted attempts failed, and
the error wraps the last underlying operation failure as its cause. -/
inductive RunError (E : Type) where
  | exhausted (cause : E)
deriving Repr, DecidableEq

/-- Modelled from the spec: the job data model of the missing `src/etl`
module (spec sections 3 and 4).  `independent` is `AsyncIndependentJob`: a
numeric label (model instrumentation identifying the job in the trace), a
wrapped operation, and a retry policy.  The operation is a function of how
many times it has been invoked so far, returning the outcome of that
invocation;
this models a zero-argument asynchronous closure whose successive calls may
differ.  `sequence` is `AsyncJobSequence`: an ordered list of child jobs and
the retry policy of the sequence as a unit. -/
inductive AsyncJob (E A : Type) where
  | independent (label : Nat) (op : Nat → Except E A) (options : RetryOptions)
  | sequence (deps : List (AsyncJob E A)) (options : RetryOptions)

/-- Modelled from the spec: the attempt loop of `AsyncIndependentJob.run()`
(spec section 4.1).  `retries` is the number of additional attempts still
permitted.  One attempt: read the number of earlier invocations of this job
from the trace, record the invocation, and invoke the operation.  Success
resolves with the result; failure retries while attempts remain, and
otherwise fails with an exhausted-retries error carrying the last failure. -/
def runAttempts {E A : Type} (label : Nat) (op : Nat → Except E A) :
    Nat → List Nat → List Nat × Except (RunError E) A
  | retries, tr =>
    match op (tr.count label) with
    | Except.ok a => (tr ++ [label], Except.ok a)
    | Except.error e =>
      match retries with
      | 0 => (tr ++ [label], Except.error (RunError.exhausted e))
      | r + 1 => runAttempts label op r (tr ++ [label])

/-- Modelled from the spec: `AsyncIndependentJob.run()` — total attempts are
`maxRetries + 1` (spec section 4.1). -/
def runIndependent {E A : Type} (label : Nat) (op : Nat → Except E A)
    (options : RetryOptions) (tr : List Nat) : List Nat × Except (RunError E) A :=
  runAttempts label op options.maxRetries tr

mutual

/-- Modelled from the spec: `run()` of the missing `src/etl` module.  An
independent job runs its attempt loop; a sequence runs its children under its
own retry envelope (spec sections 4.1 and 4.2).  The first component of the
result is the trace of operation invocations. -/
def runJob {E A : Type} : AsyncJob E A → List Nat → List Nat × Except (RunError E) Unit
  | AsyncJob.independent label op opts, tr =>
      match runIndependent label op opts tr with
      | (tr', Except.ok _) => (tr', Except.ok ())
      | (tr', Except.error e) => (tr', Except.error e)
  | AsyncJob.sequence deps opts, tr => seqGo deps opts.maxRetries tr
termination_by j _ => (sizeOf j, 0)

/-- Modelled from the spec: one pass of `AsyncJobSequence.run()` — child jobs
run strictly in order, each to its own success or exhausted-retry failure
before the next starts; a child failure aborts the pass with that error
(spec section 4.2). -/
def runPass {E A : Type} : List (AsyncJob E A) → List Nat → List Nat × Except (RunError E) Unit
  | [], tr => (tr, Except.ok ())
  | j :: js, tr =>
      match runJob j tr with
      | (tr', Except.ok _) => runPass js tr'
      | (tr', Except.error e) => (tr', Except.error e)
termination_by ds _ => (sizeOf ds, 0)

/-- Modelled from the spec: the retry envelope of `AsyncJobSequence.run()` —
on a failed pass the entire sequence restarts from its first job while
retries remain, and otherwise fails with the triggering error
(spec sections 4.2 and 7). -/
def seqGo {E A : Type} : List (AsyncJob E A) → Nat → List Nat → List Nat × Except (RunError E) Unit
  | deps, 0, tr => runPass deps tr
  | deps, r + 1, tr =>
      match runPass deps tr with
      | (tr', Except.ok u) => (tr', Except.ok u)
      | (tr', Except.error _) => seqGo deps r tr'
termination_by deps retries _ => (sizeOf deps, retries + 1)

end

/-! ### Basic facts about the attempt loop -/

theorem count_append_self (tr : List Nat) (label : Nat) :
    (tr ++ [label]).count label = tr.count label + 1 := by
  simp [List.count_append]

/-- If the operation fails on every invocation, the attempt loop performs all
`retries + 1` invocations and fails with the cause of the last one. -/
theorem runAttempts_all_fail {E A : Type} (label : Nat) (op : Nat → Except E A)
    (f : Nat → E) (hf : ∀ i, op i = Except.error (f i)) :
    ∀ (r : Nat) (tr : List Nat),
      runAttempts label op r tr =
        (tr ++ List.replicate (r + 1) label,
          Except.error (RunError.exhausted (f (tr.count label + r)))) := by
  intro r
  induction r with
  | zero =>
      intro tr
      simp [runAttempts, hf]
  | succ r ih =>
      intro tr
      rw [runAttempts, hf]
      simp only []
      rw [ih (tr ++ [label])]
      rw [count_append_self]
      have h1 : tr ++ [label] ++ List.replicate (r + 1) label
          = tr ++ List.replicate (r + 1 + 1) label := by
        rw [List.append_assoc, List.singleton_append, ← List.replicate_succ]
      have h2 : tr.count label + 1 + r = tr.count label + (r + 1) := by omega
      rw [h1, h2]

/-- If the operation fails on its first `j` invocations and succeeds on
invocation `j` (counting from 0), with `j ≤ retries`, the attempt loop makes
exactly `j + 1` invocations and resolves with that result. -/
theorem runAttempts_succeeds {E A : Type} (label : Nat) (op : Nat → Except E A) :
    ∀ (j r : Nat) (tr : List Nat) (a : A),
      j ≤ r →
      (∀ i, i < j → ∃ e, op (tr.count label + i) = Except.error e) →
      op (tr.count label + j) = Except.ok a →
      runAttempts label op r tr = (tr ++ List.replicate (j + 1) label, Except.ok a) := by
  intro j
  induction j with
  | zero =>
      intro r tr a _ _ hs
      rw [runAttempts]
      simp only [Nat.add_zero] at hs
      rw [hs]
      simp
  | succ j ih =>
      intro r tr a hjr hfail hs
      obtain ⟨e, he⟩ := hfail 0 (Nat.succ_pos j)
      simp only [Nat.add_zero] at he
      obtain ⟨r', rfl⟩ : ∃ r', r = r' + 1 := ⟨r - 1, by omega⟩
      rw [runAttempts, he]
      simp only []
      rw [ih r' (tr ++ [label]) a (by omega)
        (by
          intro i hi
          rw [count_append_self]
          obtain ⟨e', he'⟩ := hfail (i + 1) (by omega)
          exact ⟨e', by rw [← he']; congr 1; omega⟩)
        (by rw [count_append_self]; rw [← hs]; congr 1; omega)]
      rw [List.append_assoc, List.singleton_append, ← List.replicate_succ]

/-- C1: for every `maxRetries = n ≥ 0`, an `IndependentJob` whose wrapped
operation fails on every attempt invokes the wrapped operation exactly `n + 1`
times (the invocation trace is `n + 1` occurrences of its label) and `run()`
then fails with an error rather than a result. -/
theorem C1_all_fail_makes_n_succ_attempts {E A : Type} (n : Nat) (label : Nat)
    (op : Nat → Except E A) (f : Nat → E)
    (hf : ∀ i, op i = Except.error (f i)) :
    (runIndependent label op ⟨n⟩ []).1 = List.replicate (n + 1) label ∧
      ∃ e, (runIndependent label op ⟨n⟩ []).2 = Except.error e := by
  rw [runIndependent]
  rw [runAttempts_all_fail label op f hf n []]
  simp

theorem C1_all_fail_makes_n_succ_attempts_witness :
    (@runIndependent Nat Nat 0 (fun _ => Except.error 7) ⟨2⟩ []).1 = List.replicate 3 0 ∧
      ∃ e, (@runIndependent Nat Nat 0 (fun _ => Except.error 7) ⟨2⟩ []).2
        = Except.error e :=
  C1_all_fail_makes_n_succ_attempts 2 0 (fun _ => Except.error 7) (fun _ => 7)
    (fun _ => rfl)

/-- C2: for every `maxRetries = n ≥ 0` and every `k` with `1 ≤ k ≤ n + 1`, an
`IndependentJob` whose wrapped operation fails on the first `k - 1` attempts
and succeeds on attempt `k` invokes the operation exactly `k` times and
`run()` resolves with the value produced by attempt `k`. -/
theorem C2_succeeds_on_attempt_k {E A : Type} (n k : Nat) (label : Nat)
    (op : Nat → Except E A) (f : Nat → E) (a : A)
    (hk1 : 1 ≤ k) (hk2 : k ≤ n + 1)
    (hfail : ∀ i, i < k - 1 → op i = Except.error (f i))
    (hsucc : op (k - 1) = Except.ok a) :
    runIndependent label op ⟨n⟩ [] = (List.replicate k label, Except.ok a) := by
  rw [runIndependent]
  have h := runAttempts_succeeds label op (k - 1) n [] a (by omega)
    (by
      intro i hi
      exact ⟨f i, by simpa using hfail i hi⟩)
    (by simpa using hsucc)
  have hk : k - 1 + 1 = k := by omega
  rw [hk] at h
  simpa using h

theorem C2_succeeds_on_attempt_k_witness :
    runIndependent 0 (fun i => if i = 0 then Except.error 7 else Except.ok 42) ⟨1⟩ []
      = (List.replicate 2 0, (Except.ok 42 : Except (RunError Nat) Nat)) :=
  C2_succeeds_on_attempt_k 1 2 0 (fun i => if i = 0 then Except.error 7 else Except.ok 42)
    (fun _ => 7) 42 (by omega) (by omega)
    (by
      intro i hi
      have h0 : i = 0 := by omega
      rw [h0]
      simp)
    rfl

/-! ### Sequence claims -/

/-- C5: for every retry policy, running a `JobSequence` over an empty list of
child jobs resolves successfully, and the invocation trace is unchanged — no
wrapped operation is invoked. -/
theorem C5_empty_sequence_succeeds {E A : Type} (options : RetryOptions)
    (tr : List Nat) :
    runJob (AsyncJob.sequence ([] : List (AsyncJob E A)) options) tr
      = (tr, Except.ok ()) := by
  obtain ⟨m⟩ := options
  cases m <;> simp [runJob, seqGo, runPass]

/-- A pass over a singleton list is the run of its only child. -/
theorem runPass_singleton {E A : Type} (j : AsyncJob E A) (tr : List Nat) :
    runPass [j] tr = runJob j tr := by
  rw [runPass]
  cases h : runJob j tr with
  | mk tr' r =>
      cases r with
      | ok u => cases u; simp [runPass]
      | error e => rfl

/-- A failing retry envelope delivers, unchanged, the failure of its final
pass: the pass that ends in the final state. -/
theorem seqGo_error_last_pass {E A : Type} :
    ∀ (deps : List (AsyncJob E A)) (m : Nat) (tr trF : List Nat) (e : RunError E),
      seqGo deps m tr = (trF, Except.error e) →
      ∃ trS, runPass deps trS = (trF, Except.error e) := by
  intro deps m
  induction m with
  | zero =>
      intro tr trF e h
      rw [seqGo] at h
      exact ⟨tr, h⟩
  | succ m ih =>
      intro tr trF e h
      rw [seqGo] at h
      cases hp : runPass deps tr with
      | mk tr1 r1 =>
          rw [hp] at h
          cases r1 with
          | ok u => simp at h
          | error e1 => exact ih tr1 trF e h

/-- A failing pass delivers, unchanged, the failure of the child run that
ends in the final state. -/
theorem runPass_error_from_child {E A : Type} :
    ∀ (deps : List (AsyncJob E A)) (tr trF : List Nat) (e : RunError E),
      runPass deps tr = (trF, Except.error e) →
      ∃ j ∈ deps, ∃ trM, runJob j trM = (trF, Except.error e) := by
  intro deps
  induction deps with
  | nil =>
      intro tr trF e h
      rw [runPass] at h
      simp at h
  | cons j js ih =>
      intro tr trF e h
      rw [runPass] at h
      cases hj : runJob j tr with
      | mk tr1 r1 =>
          rw [hj] at h
          cases r1 with
          | ok u =>
              obtain ⟨j', hm, trM, hrun⟩ := ih tr1 trF e h
              exact ⟨j', List.mem_cons_of_mem j hm, trM, hrun⟩
          | error e1 =>
              have h' : tr1 = trF ∧ e1 = e := by simpa using h
              obtain ⟨rfl, rfl⟩ := h'
              exact ⟨j, List.mem_cons_self j js, tr, hj⟩

/-- A sequence over a single all-failing child with `maxRetries = m`, run
under a sequence envelope of `n` retries, makes `(m + 1) * (n + 1)` child
invocations in total and fails with the cause of the very last one. -/
theorem seqGo_single_all_fail {E A : Type} (label : Nat) (op : Nat → Except E A)
    (f : Nat → E) (hf : ∀ i, op i = Except.error (f i)) (m : Nat) :
    ∀ (n : Nat) (tr : List Nat),
      seqGo [AsyncJob.independent label op ⟨m⟩] n tr
        = (tr ++ List.replicate ((m + 1) * (n + 1)) label,
            Except.error (RunError.exhausted (f (tr.count label + m + (m + 1) * n)))) := by
  have h' : ∀ tr : List Nat,
      runIndependent label op ⟨m⟩ tr
        = (tr ++ List.replicate (m + 1) label,
            Except.error (RunError.exhausted (f (tr.count label + m)))) := by
    intro tr
    rw [runIndependent]
    exact runAttempts_all_fail label op f hf m tr
  intro n
  induction n with
  | zero =>
      intro tr
      rw [seqGo, runPass_singleton, runJob, h']
      simp only []
      have e1 : (m + 1) * (0 + 1) = m + 1 := by ring
      have e2 : tr.count label + m + (m + 1) * 0 = tr.count label + m := by ring
      rw [e1, e2]
  | succ n ih =>
      intro tr
      rw [seqGo, runPass_singleton, runJob, h']
      simp only []
      rw [ih (tr ++ List.replicate (m + 1) label)]
      rw [List.count_append, List.count_replicate_self]
      have e1 : tr ++ List.replicate (m + 1) label
            ++ List.replicate ((m + 1) * (n + 1)) label
          = tr ++ List.replicate ((m + 1) * (n + 1 + 1)) label := by
        rw [List.append_assoc, ← List.replicate_add]
        have e0 : (m + 1) + (m + 1) * (n + 1) = (m + 1) * (n + 1 + 1) := by ring
        rw [e0]
      have e2 : tr.count label + (m + 1) + m + (m + 1) * n
          = tr.count label + m + (m + 1) * (n + 1) := by ring
      rw [e1, e2]

/-- C6: when a job or sequence fails because all permitted attempts failed,
the failure delivered to the caller is an exhausted-retries error carrying
the failure of the last attempt as its underlying cause: an all-failing
independent job delivers the cause of its last attempt; a failing sequence
delivers, unchanged, the error of a child run of its final pass ending in the
final state — the most recent underlying failure; a sequence over an
all-failing child delivers the cause of the very last of its
`(m + 1) * (n + 1)` attempts; and the top-level caller observes a single
final success or a single final exhausted-retries failure, nothing else. -/
theorem C6_failure_carries_last_cause {E A : Type} (n m : Nat) (label : Nat)
    (op : Nat → Except E A) (f : Nat → E)
    (hf : ∀ i, op i = Except.error (f i)) :
    (runIndependent label op ⟨n⟩ []).2
        = Except.error (RunError.exhausted (f n)) ∧
      (∀ (deps : List (AsyncJob E A)) (opts : RetryOptions) (tr trF : List Nat)
          (e : RunError E),
        runJob (AsyncJob.sequence deps opts) tr = (trF, Except.error e) →
          ∃ j ∈ deps, ∃ trM, runJob j trM = (trF, Except.error e)) ∧
      runJob (AsyncJob.sequence [AsyncJob.independent label op ⟨m⟩] ⟨n⟩) []
        = (List.replicate ((m + 1) * (n + 1)) label,
            Except.error (RunError.exhausted (f ((m + 1) * (n + 1) - 1)))) ∧
      ∀ (j : AsyncJob E A) (tr : List Nat),
        (runJob j tr).2 = Except.ok () ∨
          ∃ c, (runJob j tr).2 = Except.error (RunError.exhausted c) := by
  refine ⟨?_, ?_, ?_, ?_⟩
  · rw [runIndependent, runAttempts_all_fail label op f hf n []]
    simp
  · intro deps opts tr trF e h
    rw [runJob] at h
    obtain ⟨trS, hpass⟩ := seqGo_error_last_pass deps opts.maxRetries tr trF e h
    exact runPass_error_from_child deps trS trF e hpass
  · rw [runJob]
    show seqGo [AsyncJob.independent label op ⟨m⟩] n [] = _
    rw [seqGo_single_all_fail label op f hf m n []]
    rw [List.nil_append]
    have e1 : ([] : List Nat).count label + m + (m + 1) * n
        = (m + 1) * (n + 1) - 1 := by
      rw [List.count_nil]
      have e0 : (m + 1) * (n + 1) = (m + 1) * n + (m + 1) := by ring
      omega
    rw [e1]
  · intro j tr
    cases h : (runJob j tr).2 with
    | ok u => left; rfl
    | error e =>
        right
        obtain ⟨c⟩ := e
        exact ⟨c, rfl⟩

theorem C6_failure_carries_last_cause_witness :
    (@runIndependent Nat Nat 9 (fun i => Except.error (i + 1)) ⟨1⟩ []).2
        = Except.error (RunError.exhausted 2) ∧
      (∀ (deps : List (AsyncJob Nat Nat)) (opts : RetryOptions)
          (tr trF : List Nat) (e : RunError Nat),
        runJob (AsyncJob.sequence deps opts) tr = (trF, Except.error e) →
          ∃ j ∈ deps, ∃ trM, runJob j trM = (trF, Except.error e)) ∧
      runJob
          (AsyncJob.sequence
            [@AsyncJob.independent Nat Nat 9 (fun i => Except.error (i + 1)) ⟨1⟩]
            ⟨1⟩) []
        = (List.replicate 4 9, Except.error (RunError.exhausted 4)) ∧
      ∀ (j : AsyncJob Nat Nat) (tr : List Nat),
        (runJob j tr).2 = Except.ok () ∨
          ∃ c, (runJob j tr).2 = Except.error (RunError.exhausted c) :=
  C6_failure_carries_last_cause 1 1 9 (fun i => Except.error (i + 1))
    (fun i => i + 1) (fun _ => rfl)

/-- A successful child lets the pass continue with the next children from the
extended trace. -/
theorem runPass_cons_ok {E A : Type} (j : AsyncJob E A) (js : List (AsyncJob E A))
    (tr tr' : List Nat) (h : runJob j tr = (tr', Except.ok ())) :
    runPass (j :: js) tr = runPass js tr' := by
  rw [runPass, h]

/-- A failed child aborts the pass with that error. -/
theorem runPass_cons_error {E A : Type} (j : AsyncJob E A) (js : List (AsyncJob E A))
    (tr tr' : List Nat) (e : RunError E)
    (h : runJob j tr = (tr', Except.error e)) :
    runPass (j :: js) tr = (tr', Except.error e) := by
  rw [runPass, h]

/-- A successful pass resolves the retry envelope at any remaining-retry
count. -/
theorem seqGo_of_pass_ok {E A : Type} (deps : List (AsyncJob E A)) (m : Nat)
    (tr tr' : List Nat) (h : runPass deps tr = (tr', Except.ok ())) :
    seqGo deps m tr = (tr', Except.ok ()) := by
  cases m with
  | zero => rw [seqGo, h]
  | succ m => rw [seqGo, h]

/-- A pass over independent jobs whose operations always succeed invokes each
child once, in list order. -/
theorem runPass_all_ok {E A : Type} (ops : Nat → Nat → Except E A)
    (vals : Nat → Nat → A) (optf : Nat → RetryOptions)
    (hop : ∀ l k, ops l k = Except.ok (vals l k)) :
    ∀ (ls : List Nat) (tr : List Nat),
      runPass (ls.map fun l => AsyncJob.independent l (ops l) (optf l)) tr
        = (tr ++ ls, Except.ok ()) := by
  intro ls
  induction ls with
  | nil => intro tr; simp [runPass]
  | cons l ls ih =>
      intro tr
      rw [List.map_cons]
      rw [runPass_cons_ok _ _ tr (tr ++ [l])]
      · rw [ih (tr ++ [l])]
        simp
      · rw [runJob, runIndependent, runAttempts, hop]

/-- C3: child jobs execute strictly in list order — a child runs to its own
success or failure before the rest of the list runs, a failure stops the
pass — and a sequence of always-succeeding independent jobs invokes each
child exactly once, in list order, recorded in the trace. -/
theorem C3_sequence_runs_in_order {E A : Type} :
    (∀ (j : AsyncJob E A) (js : List (AsyncJob E A)) (tr tr' : List Nat),
        runJob j tr = (tr', Except.ok ()) →
          runPass (j :: js) tr = runPass js tr') ∧
      (∀ (j : AsyncJob E A) (js : List (AsyncJob E A)) (tr tr' : List Nat)
          (e : RunError E),
        runJob j tr = (tr', Except.error e) →
          runPass (j :: js) tr = (tr', Except.error e)) ∧
      ∀ (ls : List Nat) (ops : Nat → Nat → Except E A) (vals : Nat → Nat → A)
          (optf : Nat → RetryOptions) (sopts : RetryOptions) (tr : List Nat),
        (∀ l k, ops l k = Except.ok (vals l k)) →
        runJob
            (AsyncJob.sequence
              (ls.map fun l => AsyncJob.independent l (ops l) (optf l)) sopts) tr
          = (tr ++ ls, Except.ok ()) := by
  refine ⟨runPass_cons_ok, runPass_cons_error, ?_⟩
  intro ls ops vals optf sopts tr hop
  rw [runJob]
  exact seqGo_of_pass_ok _ _ _ _ (runPass_all_ok ops vals optf hop ls tr)

theorem C3_sequence_runs_in_order_witness :
    runJob
        (AsyncJob.sequence
          ([1, 2, 3].map fun l =>
            AsyncJob.independent l (fun _ => (Except.ok 0 : Except Nat Nat)) ⟨0⟩)
          ⟨5⟩) []
      = ([1, 2, 3], Except.ok ()) :=
  C3_sequence_runs_in_order.2.2 [1, 2, 3] (fun _ _ => Except.ok 0) (fun _ _ => 0)
    (fun _ => ⟨0⟩) ⟨5⟩ [] (fun _ _ => rfl)

/-- C4: when a pass over the children fails and the sequence has remaining
retries, the sequence is re-run from its first child on the trace left by the
failed pass; concretely, a sequence with `maxRetries = 1` whose second child
fails on every attempt performs exactly two full passes — re-running the
first child in the second pass — and then fails with the exhausted error of
the failing child. -/
theorem C4_sequence_retry_restarts_from_first {E A : Type} :
    (∀ (deps : List (AsyncJob E A)) (n : Nat) (tr tr' : List Nat) (e : RunError E),
        runPass deps tr = (tr', Except.error e) →
          runJob (AsyncJob.sequence deps ⟨n + 1⟩) tr
            = runJob (AsyncJob.sequence deps ⟨n⟩) tr') ∧
      runJob
          (AsyncJob.sequence
            [AsyncJob.independent 1 (fun _ => (Except.ok 5 : Except Nat Nat)) ⟨0⟩,
              AsyncJob.independent 2 (fun _ => Except.error 7) ⟨0⟩] ⟨1⟩) []
        = ([1, 2, 1, 2], Except.error (RunError.exhausted 7)) := by
  constructor
  · intro deps n tr tr' e h
    rw [runJob, runJob]
    simp only []
    rw [seqGo, h]
  · simp [runJob, seqGo, runPass, runIndependent, runAttempts]

theorem C4_sequence_retry_restarts_from_first_witness :
    runJob
        (AsyncJob.sequence
          [AsyncJob.independent 1 (fun _ => (Except.ok 5 : Except Nat Nat)) ⟨0⟩,
            AsyncJob.independent 2 (fun _ => Except.error 7) ⟨0⟩] ⟨0 + 1⟩) []
      = runJob
          (AsyncJob.sequence
            [AsyncJob.independent 1 (fun _ => (Except.ok 5 : Except Nat Nat)) ⟨0⟩,
              AsyncJob.independent 2 (fun _ => Except.error 7) ⟨0⟩] ⟨0⟩) [1, 2] :=
  C4_sequence_retry_restarts_from_first.1
    [AsyncJob.independent 1 (fun _ => Except.ok 5) ⟨0⟩,
      AsyncJob.independent 2 (fun _ => Except.error 7) ⟨0⟩] 0 [] [1, 2]
    (RunError.exhausted 7)
    (by simp [runPass, runJob, runIndependent, runAttempts])

/-! ### Nesting and flattening -/

/-- A pass over an appended list runs the first part, then (on success) the
second part from the extended trace. -/
theorem runPass_append {E A : Type} :
    ∀ (xs ys : List (AsyncJob E A)) (tr : List Nat),
      runPass (xs ++ ys) tr =
        match runPass xs tr with
        | (tr', Except.ok _) => runPass ys tr'
        | (tr', Except.error e) => (tr', Except.error e) := by
  intro xs
  induction xs with
  | nil => intro ys tr; rw [List.nil_append, runPass]
  | cons x xs ih =>
      intro ys tr
      rw [List.cons_append, runPass, runPass]
      cases h : runJob x tr with
      | mk tr' r =>
          cases r with
          | ok u => exact ih ys tr'
          | error e => rfl

/-- A sequence with no retries is exactly one pass over its children. -/
theorem runJob_sequence_zero {E A : Type} (deps : List (AsyncJob E A))
    (tr : List Nat) :
    runJob (AsyncJob.sequence deps ⟨0⟩) tr = runPass deps tr := by
  rw [runJob]
  show seqGo deps 0 tr = runPass deps tr
  rw [seqGo]

/-- Two child lists whose passes agree from every trace have the same retry
envelope behaviour. -/
theorem seqGo_congr {E A : Type} (ds1 ds2 : List (AsyncJob E A))
    (h : ∀ tr, runPass ds1 tr = runPass ds2 tr) :
    ∀ (m : Nat) (tr : List Nat), seqGo ds1 m tr = seqGo ds2 m tr := by
  intro m
  induction m with
  | zero => intro tr; rw [seqGo, seqGo, h]
  | succ m ih =>
      intro tr
      rw [seqGo, seqGo, h]
      cases hp : runPass ds2 tr with
      | mk tr' r =>
          cases r with
          | ok u => rfl
          | error e => exact ih tr'

/-- The inner sequence of the C8 counterexample: one flaky child that fails
its first invocation and succeeds afterwards, wrapped with one retry. -/
def flakyChild : AsyncJob Nat Nat :=
  AsyncJob.independent 2 (fun k => if k = 0 then Except.error 9 else Except.ok 5) ⟨0⟩

/-- C8 counterexample: a `JobSequence` containing the sequence
`[flakyChild]` with `maxRetries = 1` as a child is NOT observably the same as
the sequence with `flakyChild` spliced in its place — the nested form retries
the inner group and succeeds after two invocations, while the spliced form
fails after one: the claimed equivalence is false as stated. -/
theorem C8_nested_not_spliced :
    runJob (AsyncJob.sequence [AsyncJob.sequence [flakyChild] ⟨1⟩] ⟨0⟩) [] ≠
      runJob (AsyncJob.sequence [flakyChild] ⟨0⟩) [] := by
  have h1 : runJob (AsyncJob.sequence [AsyncJob.sequence [flakyChild] ⟨1⟩] ⟨0⟩) []
      = ([2, 2], Except.ok ()) := by
    simp [runJob, seqGo, runPass, runIndependent, runAttempts, flakyChild]
  have h2 : runJob (AsyncJob.sequence [flakyChild] ⟨0⟩) []
      = ([2], Except.error (RunError.exhausted 9)) := by
    simp [runJob, seqGo, runPass, runIndependent, runAttempts, flakyChild]
  rw [h1, h2]
  simp

/-- C8 amended: a `JobSequence` whose child is an inner `JobSequence` with
`maxRetries = 0` behaves observably the same as the sequence with the inner
children spliced in its place; an inner sequence with remaining retries is
not equivalent to splicing, because its retry policy applies to its children
as a group, independently of the outer policy (see the counterexample). -/
theorem C8_flatten_inner_without_retries {E A : Type}
    (pre inner post : List (AsyncJob E A)) (options : RetryOptions)
    (tr : List Nat) :
    runJob
        (AsyncJob.sequence (pre ++ [AsyncJob.sequence inner ⟨0⟩] ++ post) options)
        tr
      = runJob (AsyncJob.sequence (pre ++ inner ++ post) options) tr := by
  rw [runJob, runJob]
  apply seqGo_congr
  intro tr0
  rw [List.append_assoc, List.append_assoc, runPass_append, runPass_append]
  cases hpre : runPass pre tr0 with
  | mk tr1 r1 =>
      cases r1 with
      | error e => rfl
      | ok u =>
          show runPass ([AsyncJob.sequence inner ⟨0⟩] ++ post) tr1
            = runPass (inner ++ post) tr1
          rw [runPass_append, runPass_append, runPass_singleton,
            runJob_sequence_zero]

/-! ### Job construction in src/service.ts -/

/-- From `src/service.ts`: `defaultRetryOptions()` returns
`{ maxRetries: 5 }`. -/
def defaultRetryOptions : RetryOptions := ⟨5⟩

/-- From `src/service.ts`: the numeric range argument of
`createFetchProtoRangePriceJob`; the source fields `from` and `to` are Lean
keywords and appear here as `pfrom` and `pto`. -/
structure ProtoRange where
  pfrom : Int
  pto : Int

/-- From `src/service.ts`: `createFetchProtoPriceJob(client, proto)` wraps
`_.partial(fetchProtoPrice, client, proto)` — the partial application of the
price-fetch operation to the client handle and the proto — in an
`AsyncIndependentJob` with the default retry policy.  The effectful
`fetchProtoPrice` closure is the abstract parameter here (its invocations may
differ, hence the invocation-count argument of the model); the label
`proto.toNat` is model instrumentation for the trace. -/
def createFetchProtoPriceJob {C E A : Type} (fetchProtoPrice : C → Int → Nat → Except E A)
    (client : C) (proto : Int) : AsyncJob E A :=
  AsyncJob.independent proto.toNat (fetchProtoPrice client proto) defaultRetryOptions

/-- From `src/service.ts`: the loop
`for (let proto = range.from; proto < range.to; proto++) deps.push(createFetchProtoPriceJob(client, proto))`,
embedded with the remaining iteration count as the recursion argument. -/
def rangeDeps {C E A : Type} (fetchProtoPrice : C → Int → Nat → Except E A)
    (client : C) : Int → Nat → List (AsyncJob E A)
  | _, 0 => []
  | proto, n + 1 =>
      createFetchProtoPriceJob fetchProtoPrice client proto ::
        rangeDeps fetchProtoPrice client (proto + 1) n

/-- From `src/service.ts`: `createFetchProtoRangePriceJob(client, range)`
groups the per-proto jobs of the half-open range into an `AsyncJobSequence`
with the default retry policy.  The loop runs `(range.to - range.from).toNat`
times, starting at `range.from`. -/
def createFetchProtoRangePriceJob {C E A : Type}
    (fetchProtoPrice : C → Int → Nat → Except E A) (client : C)
    (range : ProtoRange) : AsyncJob E A :=
  AsyncJob.sequence
    (rangeDeps fetchProtoPrice client range.pfrom (range.pto - range.pfrom).toNat)
    defaultRetryOptions

/-- The integer protos of the half-open range `[f, t)`, in increasing order;
stated from the claim, to be compared with the loop of the source. -/
def protosIn (f t : Int) : List Int :=
  (List.range (t - f).toNat).map fun (i : Nat) => f + (i : Int)

/-- The loop of `createFetchProtoRangePriceJob` produces exactly the per-proto
jobs of the consecutive protos starting at its initial proto. -/
theorem rangeDeps_eq_map {C E A : Type} (fetchProtoPrice : C → Int → Nat → Except E A)
    (client : C) :
    ∀ (n : Nat) (lo : Int),
      rangeDeps fetchProtoPrice client lo n
        = (List.range n).map fun (i : Nat) =>
            AsyncJob.independent (lo + (i : Int)).toNat
              (fetchProtoPrice client (lo + (i : Int))) ⟨5⟩ := by
  intro n
  induction n with
  | zero => intro lo; rw [rangeDeps]; simp
  | succ n ih =>
      intro lo
      rw [rangeDeps, ih (lo + 1), List.range_succ_eq_map]
      rw [List.map_cons, List.map_map]
      congr 1
      · simp [createFetchProtoPriceJob, defaultRetryOptions]
      · apply List.map_congr_left
        intro i _
        simp only [Function.comp]
        have hcast : lo + 1 + (i : Int) = lo + ((i + 1 : Nat) : Int) := by
          push_cast
          ring
        rw [hcast]

/-- C7: `createFetchProtoPriceJob` wraps the partial application of
`fetchProtoPrice` to `(client, proto)` in an `AsyncIndependentJob` with
`maxRetries = 5`, and `createFetchProtoRangePriceJob` builds exactly one such
job per integer proto of the half-open range `[pfrom, pto)`, in increasing
proto order — zero jobs when `pfrom ≥ pto` — grouped into an
`AsyncJobSequence` whose own retry policy is also `maxRetries = 5`. -/
theorem C7_range_job_construction {C E A : Type}
    (fetchProtoPrice : C → Int → Nat → Except E A) (client : C) (f t : Int) :
    (∀ p : Int,
        createFetchProtoPriceJob fetchProtoPrice client p
          = AsyncJob.independent p.toNat (fetchProtoPrice client p) ⟨5⟩) ∧
      createFetchProtoRangePriceJob fetchProtoPrice client ⟨f, t⟩
        = AsyncJob.sequence
            ((protosIn f t).map fun p =>
              AsyncJob.independent p.toNat (fetchProtoPrice client p) ⟨5⟩)
            ⟨5⟩ ∧
      (t ≤ f → protosIn f t = []) ∧
      (∀ p : Int, p ∈ protosIn f t ↔ f ≤ p ∧ p < t) ∧
      List.Pairwise (· < ·) (protosIn f t) := by
  refine ⟨fun p => rfl, ?_, ?_, ?_, ?_⟩
  · rw [createFetchProtoRangePriceJob]
    show AsyncJob.sequence (rangeDeps fetchProtoPrice client f (t - f).toNat) ⟨5⟩ = _
    rw [rangeDeps_eq_map, protosIn, List.map_map]
    rfl
  · intro hle
    rw [protosIn]
    have h0 : (t - f).toNat = 0 := by omega
    rw [h0]
    rfl
  · intro p
    rw [protosIn]
    simp only [List.mem_map, List.mem_range]
    constructor
    · rintro ⟨i, hi, rfl⟩
      omega
    · rintro ⟨h1, h2⟩
      exact ⟨(p - f).toNat, by omega, by omega⟩
  · rw [protosIn]
    rw [List.pairwise_map]
    have := List.pairwise_lt_range (t - f).toNat
    apply this.imp
    intro a b hab
    omega

theorem C7_range_job_construction_witness :
    createFetchProtoRangePriceJob
        (fun (_ : Unit) (_ : Int) (_ : Nat) => (Except.ok 0 : Except Nat Nat)) () ⟨3, 6⟩
      = AsyncJob.sequence
          ((protosIn 3 6).map fun p =>
            AsyncJob.independent p.toNat (fun _ => Except.ok 0) ⟨5⟩)
          ⟨5⟩ :=
  (C7_range_job_construction (fun _ _ _ => Except.ok 0) () 3 6).2.1

/-! ### Price computation in src/service.ts -/

/-- From `src/service.ts`: the part of an order that `calcAssetPrice` reads —
`order.buy.data.quantity`, a bigint. -/
structure OrderData where
  quantity : Int
deriving Repr, DecidableEq

/-- From `src/service.ts`: the `buy.data` component of an order. -/
structure OrderBuy where
  data : OrderData
deriving Repr, DecidableEq

/-- From `src/service.ts`: an order as read by `calcAssetPrice`. -/
structure SellOrder where
  buy : OrderBuy
deriving Repr, DecidableEq

/-- From `src/service.ts`: `getBestSellOrder` queries active sell orders for
the asset sorted by `buy_quantity` ascending with `page_size: 1` and returns
`ordersRequest.result[0]`.  The response result list is the input of the
model; index 0 of an empty JavaScript array is `undefined`, modelled as
`Option` via `head?`. -/
def getBestSellOrder (result : List SellOrder) : Option SellOrder :=
  result.head?

/-- From `src/service.ts`: `calcAssetPrice` — `if (!order) { return BigInt(0) }`
and otherwise `order.buy.data.quantity.toBigInt()`. -/
def calcAssetPrice (result : List SellOrder) : Int :=
  match getBestSellOrder result with
  | none => 0
  | some order => order.buy.data.quantity

/-- C9: when the order query returns an empty result list, `calcAssetPrice`
does not dereference the missing order and returns zero; the
`order.buy.data.quantity` access is reached only when the result list is
non-empty, in which case it reads the first order. -/
theorem C9_missing_order_guarded (result : List SellOrder) :
    (getBestSellOrder result = none → calcAssetPrice result = 0) ∧
      ∀ (o : SellOrder) (rest : List SellOrder),
        result = o :: rest → calcAssetPrice result = o.buy.data.quantity := by
  constructor
  · intro h
    rw [calcAssetPrice, h]
  · intro o rest h
    subst h
    rfl

theorem C9_missing_order_guarded_witness :
    calcAssetPrice [] = 0 :=
  (C9_missing_order_guarded []).1 rfl

/-! ### Persistence of proto prices in src/service.ts -/

/-- From `src/service.ts`: `weiToGwei(value)` is `value / 10n ** 9n` on
bigints — truncating division, `Int.div` in Lean. -/
def weiToGwei (value : Int) : Int :=
  Int.tdiv value (10 ^ 9)

/-- The rows of the `proto_price` table: key `(date, proto)` and the `price`
column.  `(date, proto)` is the conflict target of the upsert issued by
`fetchProtoPrice`, hence the unique key of the table. -/
abbrev Store := List ((String × Int) × Int)

/-- Whether the store holds a row with key `(date, proto)`. -/
def hasKey (s : Store) (d : String) (p : Int) : Prop :=
  ∃ r ∈ s, r.1 = (d, p)

instance (s : Store) (d : String) (p : Int) : Decidable (hasKey s d p) :=
  List.decidableBEx _ s

/-- Set the `price` column of every row with key `(date, proto)`. -/
def setPrice (s : Store) (d : String) (p : Int) (v : Int) : Store :=
  s.map fun r => if r.1 = (d, p) then (r.1, v) else r

/-- Modelled from the spec: the effect on the `proto_price` table of the
query built in `fetchProtoPrice` (`src/service.ts`):
`INSERT INTO proto_price(date, proto, price) VALUES (dateStr, proto, priceGwei)`
with `ON CONFLICT (date, proto) DO UPDATE SET price = priceGwei`.  The query
string is in the source; the database driver (`./db`) is not among the
sources, so the execution is modelled with the standard SQL upsert semantics:
update the `price` of the conflicting row when the key exists, insert the row
otherwise. -/
def runUpsert (s : Store) (d : String) (p : Int) (v : Int) : Store :=
  if hasKey s d p then setPrice s d p v else s ++ [((d, p), v)]

/-- The `price` values of the rows with key `(date, proto)`. -/
def rowsFor (s : Store) (d : String) (p : Int) : List Int :=
  (s.filter fun r => decide (r.1 = (d, p))).map fun r => r.2

/-- From `src/service.ts`: the store effect and the result of
`fetchProtoPrice(client, proto)` — compute the price from the best sell
order of the (proto, Meteorite) asset, convert it to gwei, upsert it under
the current date, and resolve with `{ proto, price }`.  The order-query
response and the date string are inputs of the model. -/
def fetchProtoPrice (ordersResult : List SellOrder) (dateStr : String)
    (proto : Int) (s : Store) : Store × (Int × Int) :=
  let price := calcAssetPrice ordersResult
  let priceGwei := weiToGwei price
  (runUpsert s dateStr proto priceGwei, (proto, price))

theorem setPrice_of_not_hasKey (s : Store) (d : String) (p : Int) (v : Int)
    (h : ¬ hasKey s d p) : setPrice s d p v = s := by
  induction s with
  | nil => rfl
  | cons r rest ih =>
      rw [setPrice, List.map_cons]
      have hr : ¬ r.1 = (d, p) := fun hr => h ⟨r, List.mem_cons_self r rest, hr⟩
      rw [if_neg hr]
      have hrest : ¬ hasKey rest d p := fun ⟨r', hm, he⟩ =>
        h ⟨r', List.mem_cons_of_mem r hm, he⟩
      rw [setPrice] at ih
      rw [ih hrest]

theorem setPrice_setPrice (s : Store) (d : String) (p : Int) (v : Int) :
    setPrice (setPrice s d p v) d p v = setPrice s d p v := by
  simp only [setPrice, List.map_map]
  apply List.map_congr_left
  intro r _
  by_cases hr : r.1 = (d, p)
  · simp [Function.comp, hr]
  · simp [Function.comp, hr]

theorem hasKey_setPrice (s : Store) (d : String) (p v : Int) :
    hasKey (setPrice s d p v) d p ↔ hasKey s d p := by
  constructor
  · rintro ⟨r', hm, he⟩
    rw [setPrice] at hm
    obtain ⟨r, hr, rfl⟩ := List.mem_map.mp hm
    by_cases h : r.1 = (d, p)
    · exact ⟨r, hr, h⟩
    · rw [if_neg h] at he
      exact ⟨r, hr, he⟩
  · rintro ⟨r, hm, he⟩
    refine ⟨(r.1, v), ?_, he⟩
    rw [setPrice]
    exact List.mem_map.mpr ⟨r, hm, by rw [if_pos he]⟩

theorem hasKey_append_key (s : Store) (d : String) (p v : Int) :
    hasKey (s ++ [((d, p), v)]) d p :=
  ⟨((d, p), v), List.mem_append_right s (List.mem_singleton.mpr rfl), rfl⟩

theorem runUpsert_of_hasKey (s : Store) (d : String) (p v : Int)
    (h : hasKey s d p) : runUpsert s d p v = setPrice s d p v := by
  rw [runUpsert, if_pos h]

theorem runUpsert_of_not_hasKey (s : Store) (d : String) (p v : Int)
    (h : ¬ hasKey s d p) : runUpsert s d p v = s ++ [((d, p), v)] := by
  rw [runUpsert, if_neg h]

/-- Re-executing the upsert with the same key and price leaves the store
unchanged. -/
theorem runUpsert_runUpsert (s : Store) (d : String) (p v : Int) :
    runUpsert (runUpsert s d p v) d p v = runUpsert s d p v := by
  by_cases h : hasKey s d p
  · rw [runUpsert_of_hasKey s d p v h,
      runUpsert_of_hasKey _ d p v ((hasKey_setPrice s d p v).mpr h),
      setPrice_setPrice]
  · rw [runUpsert_of_not_hasKey s d p v h,
      runUpsert_of_hasKey _ d p v (hasKey_append_key s d p v)]
    rw [setPrice, List.map_append]
    congr 1
    · exact setPrice_of_not_hasKey s d p v h
    · simp

theorem filter_key_eq_nil (s : Store) (d : String) (p : Int)
    (h : ¬ hasKey s d p) :
    s.filter (fun r => decide (r.1 = (d, p))) = [] := by
  induction s with
  | nil => rfl
  | cons r rest ih =>
      have hr : ¬ r.1 = (d, p) := fun he => h ⟨r, List.mem_cons_self r rest, he⟩
      have hrest : ¬ hasKey rest d p := fun hk => by
        obtain ⟨r', hm, he⟩ := hk
        exact h ⟨r', List.mem_cons_of_mem r hm, he⟩
      rw [List.filter_cons]
      simp only [hr, decide_eq_false, Bool.false_eq_true, if_false]
      exact ih hrest

theorem rowsFor_of_not_hasKey (s : Store) (d : String) (p : Int)
    (h : ¬ hasKey s d p) : rowsFor s d p = [] := by
  rw [rowsFor, filter_key_eq_nil s d p h]
  rfl

/-- With pairwise-distinct keys, updating the price of an existing key leaves
exactly one row for that key, holding the new price. -/
theorem rowsFor_setPrice (d : String) (p v : Int) :
    ∀ (s : Store), hasKey s d p → (s.map fun r => r.1).Nodup →
      rowsFor (setPrice s d p v) d p = [v] := by
  intro s
  induction s with
  | nil => rintro ⟨r, hm, he⟩; cases hm
  | cons r rest ih =>
      intro hk hnd
      rw [List.map_cons, List.nodup_cons] at hnd
      obtain ⟨hr1, hndrest⟩ := hnd
      rw [setPrice, List.map_cons]
      by_cases hr : r.1 = (d, p)
      · rw [if_pos hr]
        have hnk : ¬ hasKey rest d p := by
          rintro ⟨r', hm, he⟩
          exact hr1 (by rw [← hr] at he; exact (List.mem_map.mpr ⟨r', hm, he⟩))
        rw [rowsFor, List.filter_cons]
        simp only [hr, decide_eq_true_eq, decide_eq_true, if_true]
        have : (rest.map fun x => if x.1 = (d, p) then (x.1, v) else x).filter
            (fun x => decide (x.1 = (d, p))) = [] := by
          have := setPrice_of_not_hasKey rest d p v hnk
          rw [setPrice] at this
          rw [this]
          exact filter_key_eq_nil rest d p hnk
        rw [this]
        rfl
      · rw [if_neg hr]
        have hkrest : hasKey rest d p := by
          obtain ⟨r', hm, he⟩ := hk
          rcases List.mem_cons.mp hm with h1 | h2
          · exact absurd (h1 ▸ he) hr
          · exact ⟨r', h2, he⟩
        rw [rowsFor, List.filter_cons]
        simp only [hr, decide_eq_false, Bool.false_eq_true, if_false]
        have := ih hkrest hndrest
        rw [rowsFor, setPrice] at this
        exact this

/-- With pairwise-distinct keys, after the upsert the store holds exactly one
row for the key, holding the just-written price. -/
theorem rowsFor_runUpsert (s : Store) (d : String) (p v : Int)
    (hnd : (s.map fun r => r.1).Nodup) :
    rowsFor (runUpsert s d p v) d p = [v] := by
  by_cases h : hasKey s d p
  · rw [runUpsert_of_hasKey s d p v h]
    exact rowsFor_setPrice d p v s h hnd
  · rw [runUpsert_of_not_hasKey s d p v h]
    rw [rowsFor, List.filter_append, filter_key_eq_nil s d p h]
    simp

/-- C10: `fetchProtoPrice` is retry-safe at the persistence layer — its SQL
is an insert with `ON CONFLICT (date, proto) DO UPDATE` on the price column,
so running it twice with the same inputs yields the same store state as
running it once, and (when the table keys are unique, as the conflict target
makes them) the store is left with a single row for `(date, proto)` holding
the gwei price just computed. -/
theorem C10_fetchProtoPrice_retry_safe (ordersResult : List SellOrder)
    (dateStr : String) (proto : Int) (s : Store)
    (hnd : (s.map fun r => r.1).Nodup) :
    (fetchProtoPrice ordersResult dateStr proto
        (fetchProtoPrice ordersResult dateStr proto s).1).1
      = (fetchProtoPrice ordersResult dateStr proto s).1 ∧
      rowsFor (fetchProtoPrice ordersResult dateStr proto s).1 dateStr proto
        = [weiToGwei (calcAssetPrice ordersResult)] := by
  constructor
  · exact runUpsert_runUpsert s dateStr proto (weiToGwei (calcAssetPrice ordersResult))
  · exact rowsFor_runUpsert s dateStr proto (weiToGwei (calcAssetPrice ordersResult)) hnd

theorem C10_fetchProtoPrice_retry_safe_witness :
    (fetchProtoPrice [] "2022-05-27" 1 (fetchProtoPrice [] "2022-05-27" 1 []).1).1
        = (fetchProtoPrice [] "2022-05-27" 1 []).1 ∧
      rowsFor (fetchProtoPrice [] "2022-05-27" 1 []).1 "2022-05-27" 1
        = [weiToGwei (calcAssetPrice [])] :=
  C10_fetchProtoPrice_retry_safe [] "2022-05-27" 1 [] (by simp)
